import Mathlib

/-!
Shallow embedding of the per-account nonce allocation subsystem of
x/evm/keeper/keeper.go: the pending nonce table, the completed nonce
LRU cache, and the operations AddPendingNonce, RemovePendingNonce,
CalculateNextNonce and sortedListContains.

Addresses (common.Address) are modelled as lists of 20 byte values;
map keys and cache keys are modelled as lists of characters, produced
by models of addr.Hex() and of the fmt.Sprintf format used by
nonceCacheKey.  The unbounded for loop of CalculateNextNonce is
modelled with explicit fuel; the termination theorem shows the chosen
fuel always suffices.
-/

namespace SeiNonce

/-- Decimal digit character, as printed by fmt.Sprintf for base ten. -/
def digitChar (d : Nat) : Char :=
  match d with
  | 0 => '0'
  | 1 => '1'
  | 2 => '2'
  | 3 => '3'
  | 4 => '4'
  | 5 => '5'
  | 6 => '6'
  | 7 => '7'
  | 8 => '8'
  | _ => '9'

/-- Inverse of digitChar on decimal digit characters. -/
def digitVal (c : Char) : Nat :=
  if c = '0' then 0
  else if c = '1' then 1
  else if c = '2' then 2
  else if c = '3' then 3
  else if c = '4' then 4
  else if c = '5' then 5
  else if c = '6' then 6
  else if c = '7' then 7
  else if c = '8' then 8
  else 9

theorem digitVal_digitChar (d : Nat) (h : d < 10) : digitVal (digitChar d) = d := by
  interval_cases d <;> rfl

/-- Worker for the decimal rendering, with structural fuel so that the
kernel can evaluate it; any fuel above the number suffices. -/
def decDigitsAux : Nat → Nat → List Char
  | 0, _ => []
  | fuel + 1, n =>
    if n < 10 then [digitChar n]
    else decDigitsAux fuel (n / 10) ++ [digitChar (n % 10)]

/-- Decimal representation of a natural number, most significant digit first;
models the decimal rendering done by fmt.Sprintf in nonceCacheKey. -/
def decDigits (n : Nat) : List Char := decDigitsAux (n + 1) n

/-- Value of a decimal digit string. -/
def decVal (l : List Char) : Nat :=
  l.foldl (fun acc c => 10 * acc + digitVal c) 0

theorem decVal_append_digit (l : List Char) (c : Char) :
    decVal (l ++ [c]) = 10 * decVal l + digitVal c := by
  simp [decVal, List.foldl_append]

theorem decVal_decDigitsAux (fuel : Nat) :
    ∀ n : Nat, n < fuel → decVal (decDigitsAux fuel n) = n := by
  induction fuel with
  | zero => intro n hn; omega
  | succ fuel ih =>
    intro n hn
    unfold decDigitsAux
    by_cases h : n < 10
    · rw [if_pos h]
      simp [decVal, List.foldl]
      exact digitVal_digitChar n h
    · rw [if_neg h]
      have hdiv : n / 10 < fuel := by omega
      rw [decVal_append_digit, ih (n / 10) hdiv,
        digitVal_digitChar (n % 10) (Nat.mod_lt n (by omega))]
      omega

theorem decVal_decDigits (n : Nat) : decVal (decDigits n) = n :=
  decVal_decDigitsAux (n + 1) n (by omega)

theorem decDigits_inj {m n : Nat} (h : decDigits m = decDigits n) : m = n := by
  have := decVal_decDigits m
  rw [h, decVal_decDigits] at this
  omega

/-- Hexadecimal digit character (lower case). -/
def hexDigitChar (d : Nat) : Char :=
  match d with
  | 0 => '0'
  | 1 => '1'
  | 2 => '2'
  | 3 => '3'
  | 4 => '4'
  | 5 => '5'
  | 6 => '6'
  | 7 => '7'
  | 8 => '8'
  | 9 => '9'
  | 10 => 'a'
  | 11 => 'b'
  | 12 => 'c'
  | 13 => 'd'
  | 14 => 'e'
  | _ => 'f'

/-- Inverse of hexDigitChar on hexadecimal digit characters. -/
def hexDigitVal (c : Char) : Nat :=
  if c = '0' then 0
  else if c = '1' then 1
  else if c = '2' then 2
  else if c = '3' then 3
  else if c = '4' then 4
  else if c = '5' then 5
  else if c = '6' then 6
  else if c = '7' then 7
  else if c = '8' then 8
  else if c = '9' then 9
  else if c = 'a' then 10
  else if c = 'b' then 11
  else if c = 'c' then 12
  else if c = 'd' then 13
  else if c = 'e' then 14
  else 15

theorem hexDigitVal_hexDigitChar (d : Nat) (h : d < 16) :
    hexDigitVal (hexDigitChar d) = d := by
  interval_cases d <;> rfl

/-- Two hexadecimal characters of one byte, high nibble first. -/
def byteHex (b : Nat) : List Char := [hexDigitChar (b / 16), hexDigitChar (b % 16)]

/-- Hexadecimal rendering of a byte sequence. -/
def hexOfBytes : List Nat → List Char
  | [] => []
  | b :: rest => byteHex b ++ hexOfBytes rest

/-- Inverse of hexOfBytes: reads character pairs back into bytes. -/
def hexToBytes : List Char → List Nat
  | c1 :: c2 :: rest => (16 * hexDigitVal c1 + hexDigitVal c2) :: hexToBytes rest
  | _ => []

theorem hexToBytes_hexOfBytes (a : List Nat) (h : ∀ b ∈ a, b < 256) :
    hexToBytes (hexOfBytes a) = a := by
  induction a with
  | nil => rfl
  | cons b rest ih =>
    have hb : b < 256 := h b (by simp)
    have h1 : b / 16 < 16 := by omega
    have h2 : b % 16 < 16 := by omega
    simp only [hexOfBytes, byteHex, List.cons_append, List.nil_append, hexToBytes,
      hexDigitVal_hexDigitChar _ h1, hexDigitVal_hexDigitChar _ h2]
    congr 1
    · omega
    · exact ih (fun x hx => h x (by simp [hx]))

theorem length_hexOfBytes (a : List Nat) : (hexOfBytes a).length = 2 * a.length := by
  induction a with
  | nil => rfl
  | cons b rest ih => simp [hexOfBytes, byteHex, ih]; omega

/-- Models common.Address.Hex(): the 0x prefixed hexadecimal rendering of the
20 address bytes.  The EIP-55 checksum casing of go-ethereum is omitted: casing
never changes which addresses render equal, which is the only property the
keeper relies on (Hex is used as a map and cache key). -/
def addrHex (a : List Nat) : List Char := '0' :: 'x' :: hexOfBytes a

/-- A well formed address value: 20 bytes. -/
def isValidAddr (a : List Nat) : Prop := a.length = 20 ∧ ∀ b ∈ a, b < 256

instance (a : List Nat) : Decidable (isValidAddr a) := by
  unfold isValidAddr; infer_instance

/-- The designated null (burn) address, keeper.go line 24. -/
def zeroAddress : List Nat := List.replicate 20 0

theorem isValidAddr_zeroAddress : isValidAddr zeroAddress := by decide

theorem addrHex_inj {a1 a2 : List Nat} (h1 : ∀ b ∈ a1, b < 256)
    (h2 : ∀ b ∈ a2, b < 256) (heq : addrHex a1 = addrHex a2) : a1 = a2 := by
  have : hexOfBytes a1 = hexOfBytes a2 := by
    simpa [addrHex] using heq
  have := congrArg hexToBytes this
  rwa [hexToBytes_hexOfBytes a1 h1, hexToBytes_hexOfBytes a2 h2] at this

theorem length_addrHex {a : List Nat} (h : isValidAddr a) :
    (addrHex a).length = 42 := by
  simp [addrHex, length_hexOfBytes, h.1]

/-- Models nonceCacheKey (keeper.go lines 172 to 175): the string
addr.Hex() followed by a vertical bar followed by the decimal nonce. -/
def nonceCacheKey (a : List Nat) (n : Nat) : List Char :=
  addrHex a ++ '|' :: decDigits n

theorem nonceCacheKey_inj_nonce {a : List Nat} {n1 n2 : Nat}
    (h : nonceCacheKey a n1 = nonceCacheKey a n2) : n1 = n2 := by
  unfold nonceCacheKey at h
  have h2 := List.append_cancel_left h
  exact decDigits_inj (List.cons.inj h2).2

theorem nonceCacheKey_inj {a1 a2 : List Nat} {n1 n2 : Nat}
    (h1 : isValidAddr a1) (h2 : isValidAddr a2)
    (heq : nonceCacheKey a1 n1 = nonceCacheKey a2 n2) : a1 = a2 ∧ n1 = n2 := by
  unfold nonceCacheKey at heq
  have hlen : (addrHex a1).length = (addrHex a2).length := by
    rw [length_addrHex h1, length_addrHex h2]
  obtain ⟨hhex, htail⟩ := List.append_inj heq hlen
  refine ⟨addrHex_inj h1.2 h2.2 hhex, ?_⟩
  exact decDigits_inj (List.cons.inj htail).2

/-! ### Association map model of the Go map pendingNonces

Go maps have unique keys; the association list model below is only ever
built through mapSet and mapDelete starting from the empty map, which keeps
keys unique, but no lemma here needs that invariant. -/

/-- Lookup in the pending nonce map (Go map indexing). -/
def mapGet (m : List (List Char × List Nat)) (k : List Char) : Option (List Nat) :=
  match m with
  | [] => none
  | kv :: rest => if kv.1 = k then some kv.2 else mapGet rest k

/-- Assignment in the pending nonce map (Go map assignment): replaces the
binding of the key when present, otherwise appends a new binding. -/
def mapSet (m : List (List Char × List Nat)) (k : List Char) (v : List Nat) :
    List (List Char × List Nat) :=
  match m with
  | [] => [(k, v)]
  | kv :: rest => if kv.1 = k then (k, v) :: rest else kv :: mapSet rest k v

/-- Deletion from the pending nonce map (Go delete builtin). -/
def mapDelete (m : List (List Char × List Nat)) (k : List Char) :
    List (List Char × List Nat) :=
  m.filter (fun kv => kv.1 ≠ k)

theorem mapGet_mapSet_self (m : List (List Char × List Nat)) (k : List Char)
    (v : List Nat) : mapGet (mapSet m k v) k = some v := by
  induction m with
  | nil => simp [mapSet, mapGet]
  | cons kv rest ih =>
    by_cases h : kv.1 = k <;> simp [mapSet, mapGet, h, ih]

theorem mapGet_mapSet_ne (m : List (List Char × List Nat)) (k k' : List Char)
    (v : List Nat) (hne : k' ≠ k) : mapGet (mapSet m k v) k' = mapGet m k' := by
  induction m with
  | nil => simp [mapSet, mapGet, Ne.symm hne]
  | cons kv rest ih =>
    by_cases h : kv.1 = k
    · have h2 : kv.1 ≠ k' := by rw [h]; exact Ne.symm hne
      simp [mapSet, mapGet, h, h2, Ne.symm hne]
    · by_cases h' : kv.1 = k' <;> simp [mapSet, mapGet, h, h', hne, ih]

theorem mapGet_mapDelete_self (m : List (List Char × List Nat)) (k : List Char) :
    mapGet (mapDelete m k) k = none := by
  induction m with
  | nil => rfl
  | cons kv rest ih =>
    by_cases h : kv.1 = k
    · simpa [mapDelete, List.filter_cons, h] using ih
    · simpa [mapDelete, List.filter_cons, h, mapGet] using ih

theorem mapGet_mapDelete_ne (m : List (List Char × List Nat)) (k k' : List Char)
    (hne : k' ≠ k) : mapGet (mapDelete m k) k' = mapGet m k' := by
  induction m with
  | nil => rfl
  | cons kv rest ih =>
    by_cases h : kv.1 = k
    · have h2 : kv.1 ≠ k' := by rw [h]; exact Ne.symm hne
      simpa [mapDelete, List.filter_cons, h, mapGet, h2, Ne.symm hne] using ih
    · by_cases h' : kv.1 = k'
      · simp [mapDelete, List.filter_cons, h, mapGet, h', hne]
      · simpa [mapDelete, List.filter_cons, h, mapGet, h', hne] using ih

theorem mem_mapSet {m : List (List Char × List Nat)} {k : List Char}
    {v : List Nat} {kv : List Char × List Nat} (h : kv ∈ mapSet m k v) :
    kv = (k, v) ∨ kv ∈ m := by
  induction m with
  | nil => simpa [mapSet] using h
  | cons kv0 rest ih =>
    by_cases h0 : kv0.1 = k
    · simp [mapSet, h0] at h
      rcases h with h | h
      · exact Or.inl h
      · exact Or.inr (by simp [h])
    · simp [mapSet, h0] at h
      rcases h with h | h
      · exact Or.inr (by simp [h])
      · rcases ih h with h' | h'
        · exact Or.inl h'
        · exact Or.inr (by simp [h'])

theorem mem_mapDelete {m : List (List Char × List Nat)} {k : List Char}
    {kv : List Char × List Nat} (h : kv ∈ mapDelete m k) : kv ∈ m :=
  List.mem_of_mem_filter h

/-! ### The completed nonce cache

The cache is hashicorp golang-lru simplelru, an external dependency whose
source is not under src/.  Modelled from the spec (section 4.2): a
capacity bounded set with least-recently-used eviction; Add inserts the
key at the most recent position, evicting the least recently used entry
when over capacity; Contains is a membership test and a hit counts as a
recency touch.  Entries are kept most recent first; the stored Boolean
value (always true in keeper.go) is omitted. -/

structure LRU where
  capacity : Nat
  entries : List (List Char)
deriving DecidableEq

/-- Modelled from the spec: Add inserts the pair, moving it to the most
recent position; if over capacity, the least recently used entry (the
last one) is evicted. -/
def lruAdd (c : LRU) (k : List Char) : LRU :=
  let es := k :: c.entries.erase k
  { c with entries := if c.capacity < es.length then es.dropLast else es }

/-- Membership in the cache (the Boolean answer of Contains). -/
def lruContains (c : LRU) (k : List Char) : Bool := c.entries.contains k

/-- Modelled from the spec: Contains is a membership test and a hit counts
as a recency touch; returns the answer and the touched cache. -/
def lruContainsTouch (c : LRU) (k : List Char) : Bool × LRU :=
  if c.entries.contains k then
    (true, { c with entries := k :: c.entries.erase k })
  else (false, c)

theorem lruContains_iff (c : LRU) (k : List Char) :
    lruContains c k = true ↔ k ∈ c.entries := by
  simp [lruContains]

/-! ### The keeper state and its nonce operations (keeper.go) -/

/-- The nonce-relevant state of the Keeper struct: the pendingNonces map
and the completedNonces LRU cache.  The other Keeper fields (stores,
sub-keepers, transaction indices, fee collector cache) are outside the
nonce subsystem. -/
structure Keeper where
  pendingNonces : List (List Char × List Nat)
  completedNonces : LRU
deriving DecidableEq

/-- The state built by NewKeeper (keeper.go lines 43 to 68): an empty
pending map and an empty LRU cache of capacity 100000 (line 50). -/
def initialKeeper : Keeper :=
  { pendingNonces := [], completedNonces := { capacity := 100000, entries := [] } }

/-- sortedListContains (keeper.go lines 208 to 219): scans the slice,
returns true on an exact match and bails out early as soon as a scanned
element exceeds the target. -/
def sortedListContains (slice : List Nat) (item : Nat) : Bool :=
  match slice with
  | [] => false
  | v :: rest =>
    if v = item then true
    else if v > item then false
    else sortedListContains rest item

/-- AddPendingNonce (keeper.go lines 222 to 228): appends the nonce to the
pending slice of the address (a missing key reads as the empty slice) and
re-sorts the slice.  Note there is no zero-address guard here. -/
def AddPendingNonce (s : Keeper) (addr : List Nat) (nonce : Nat) : Keeper :=
  let key := addrHex addr
  let cur := (mapGet s.pendingNonces key).getD []
  { s with pendingNonces :=
      mapSet s.pendingNonces key (List.insertionSort (· ≤ ·) (cur ++ [nonce])) }

/-- The success arm of the removal loop of RemovePendingNonce (keeper.go
lines 250 to 260): walking the slice, the first element that is at least
the nonce triggers removal of every element up to and including itself
(the copy and truncate keep exactly the suffix after it); if no element
triggers, the loop falls through with no mutation (answer none). -/
def dropThroughFirstGE (lst : List Nat) (nonce : Nat) : Option (List Nat) :=
  match lst with
  | [] => none
  | x :: rest => if nonce ≤ x then some rest else dropThroughFirstGE rest nonce

/-- The failure arm of the removal loop of RemovePendingNonce (keeper.go
lines 261 to 264): the first exact match is removed, the rest of the
slice is kept in order; if no element matches, the loop falls through
with no mutation (answer none). -/
def removeFirstMatch (lst : List Nat) (nonce : Nat) : Option (List Nat) :=
  match lst with
  | [] => none
  | x :: rest =>
    if x = nonce then some rest
    else (removeFirstMatch rest nonce).map (fun r => x :: r)

/-- RemovePendingNonce (keeper.go lines 232 to 267).  Returns immediately
for the zero address.  On success the completed cache is written first;
then the first slice element that is at least the nonce triggers removal
of the whole prefix up to and including it (deleting the map entry when
the slice becomes empty).  On failure only the first exact match is
removed (and the possibly empty slice is written back). -/
def RemovePendingNonce (s : Keeper) (addr : List Nat) (nonce : Nat)
    (success : Bool) : Keeper :=
  if addr = zeroAddress then s
  else
    let key := addrHex addr
    let s1 := if success then
        { s with completedNonces := lruAdd s.completedNonces (nonceCacheKey addr nonce) }
      else s
    match mapGet s1.pendingNonces key with
    | none => s1
    | some lst =>
      if success then
        match dropThroughFirstGE lst nonce with
        | some newLst =>
          if newLst.isEmpty then
            { s1 with pendingNonces := mapDelete s1.pendingNonces key }
          else
            { s1 with pendingNonces := mapSet s1.pendingNonces key newLst }
        | none => s1
      else
        match removeFirstMatch lst nonce with
        | some newLst =>
          { s1 with pendingNonces := mapSet s1.pendingNonces key newLst }
        | none => s1

/-- The pending slice of an address as CalculateNextNonce reads it
(keeper.go line 193): a missing key reads as the empty slice. -/
def pendingOf (s : Keeper) (addr : List Nat) : List Nat :=
  (mapGet s.pendingNonces (addrHex addr)).getD []

/-- The scanning loop of CalculateNextNonce (keeper.go lines 198 to 204),
with explicit fuel standing in for the unbounded Go loop: the first
candidate in neither the pending slice nor the completed cache is
returned. -/
def scanNext (pending : List Nat) (cache : LRU) (addr : List Nat)
    (candidate fuel : Nat) : Option Nat :=
  match fuel with
  | 0 => none
  | f + 1 =>
    if !sortedListContains pending candidate
        && !lruContains cache (nonceCacheKey addr candidate) then
      some candidate
    else scanNext pending cache addr (candidate + 1) f

/-- CalculateNextNonce (keeper.go lines 180 to 205).  The committed nonce
source GetNonce is external state read from the context; it is passed as
the function getNonce.  The fuel given to the scan is one more than the
total size of the two structures; the termination theorem shows this
always suffices, so the fuelled scan is a faithful rendering of the
unbounded loop. -/
def CalculateNextNonce (s : Keeper) (getNonce : List Nat → Nat)
    (addr : List Nat) (includePending : Bool) : Option Nat :=
  let latest := getNonce addr
  if !includePending then some latest
  else
    let pending := pendingOf s addr
    scanNext pending s.completedNonces addr latest
      (pending.length + s.completedNonces.entries.length + 1)

/-! ### Invariants -/

/-- No address maps to an empty pending slice. -/
def noEmptyEntries (m : List (List Char × List Nat)) : Prop :=
  ∀ kv ∈ m, kv.2 ≠ []

instance (m : List (List Char × List Nat)) : Decidable (noEmptyEntries m) := by
  unfold noEmptyEntries; infer_instance

/-- Every pending slice in the map is sorted in ascending order. -/
def allSorted (m : List (List Char × List Nat)) : Prop :=
  ∀ kv ∈ m, List.Sorted (· ≤ ·) kv.2

instance (m : List (List Char × List Nat)) : Decidable (allSorted m) := by
  unfold allSorted
  have : ∀ kv : List Char × List Nat, Decidable (List.Sorted (· ≤ ·) kv.2) := by
    intro kv; unfold List.Sorted; infer_instance
  infer_instance

/-- A candidate nonce is blocked for an address when it is present in the
pending slice of the address or its cache key is present in the completed
cache. -/
def blockedNonce (s : Keeper) (addr : List Nat) (v : Nat) : Prop :=
  v ∈ pendingOf s addr ∨ nonceCacheKey addr v ∈ s.completedNonces.entries

instance (s : Keeper) (addr : List Nat) (v : Nat) :
    Decidable (blockedNonce s addr v) := by
  unfold blockedNonce; infer_instance

/-! ### Properties of sortedListContains -/

theorem mem_of_sortedListContains {l : List Nat} {v : Nat}
    (h : sortedListContains l v = true) : v ∈ l := by
  induction l with
  | nil => simp [sortedListContains] at h
  | cons x rest ih =>
    by_cases hx : x = v
    · simp [hx]
    · by_cases hgt : x > v
      · simp [sortedListContains, hx, hgt] at h
      · simp only [sortedListContains, if_neg hx, if_neg hgt] at h
        exact List.mem_cons_of_mem x (ih h)

theorem sortedListContains_of_mem {l : List Nat} {v : Nat}
    (hs : List.Sorted (· ≤ ·) l) (hm : v ∈ l) : sortedListContains l v = true := by
  induction l with
  | nil => simp at hm
  | cons x rest ih =>
    rcases List.mem_cons.mp hm with h | h
    · simp [sortedListContains, h.symm]
    · by_cases hxv : x = v
      · simp [sortedListContains, hxv]
      · have hle : x ≤ v := List.rel_of_sorted_cons hs v h
        have hngt : ¬x > v := by omega
        simp only [sortedListContains, if_neg hxv, if_neg hngt]
        exact ih hs.of_cons h

theorem sortedListContains_iff_mem {l : List Nat} {v : Nat}
    (hs : List.Sorted (· ≤ ·) l) : sortedListContains l v = true ↔ v ∈ l :=
  ⟨mem_of_sortedListContains, sortedListContains_of_mem hs⟩

/-! ### Properties of the two removal arms -/

theorem dropThroughFirstGE_none {lst : List Nat} {nonce : Nat} :
    dropThroughFirstGE lst nonce = none ↔ ∀ x ∈ lst, x < nonce := by
  induction lst with
  | nil => simp [dropThroughFirstGE]
  | cons x rest ih =>
    by_cases h : nonce ≤ x
    · simp [dropThroughFirstGE, h]
    · simp [dropThroughFirstGE, h, ih]; omega

theorem dropThroughFirstGE_some {lst newLst : List Nat} {nonce : Nat}
    (h : dropThroughFirstGE lst nonce = some newLst) :
    ∃ pre x, lst = pre ++ x :: newLst ∧ (∀ y ∈ pre, y < nonce) ∧ nonce ≤ x := by
  induction lst generalizing newLst with
  | nil => simp [dropThroughFirstGE] at h
  | cons x rest ih =>
    by_cases hx : nonce ≤ x
    · simp [dropThroughFirstGE, hx] at h
      exact ⟨[], x, by simp [h], by simp, hx⟩
    · simp only [dropThroughFirstGE, if_neg hx] at h
      obtain ⟨pre, y, heq, hpre, hy⟩ := ih h
      exact ⟨x :: pre, y, by simp [heq], by
        intro z hz
        rcases List.mem_cons.mp hz with hz | hz
        · omega
        · exact hpre z hz, hy⟩

theorem dropThroughFirstGE_some_sublist {lst newLst : List Nat} {nonce : Nat}
    (h : dropThroughFirstGE lst nonce = some newLst) : newLst.Sublist lst := by
  obtain ⟨pre, x, heq, -, -⟩ := dropThroughFirstGE_some h
  rw [heq]
  exact (List.sublist_cons_self x newLst).trans (List.sublist_append_right pre (x :: newLst))

theorem removeFirstMatch_none {lst : List Nat} {nonce : Nat} :
    removeFirstMatch lst nonce = none ↔ nonce ∉ lst := by
  induction lst with
  | nil => simp [removeFirstMatch]
  | cons x rest ih =>
    by_cases h : x = nonce
    · simp [removeFirstMatch, h]
    · simp [removeFirstMatch, h, ih, Ne.symm h]

theorem removeFirstMatch_some {lst newLst : List Nat} {nonce : Nat}
    (h : removeFirstMatch lst nonce = some newLst) :
    ∃ pre post, lst = pre ++ nonce :: post ∧ nonce ∉ pre ∧ newLst = pre ++ post := by
  induction lst generalizing newLst with
  | nil => simp [removeFirstMatch] at h
  | cons x rest ih =>
    by_cases hx : x = nonce
    · simp [removeFirstMatch, hx] at h
      exact ⟨[], newLst, by simp [hx, h], by simp, by simp⟩
    · simp only [removeFirstMatch, if_neg hx, Option.map_eq_some'] at h
      obtain ⟨r, hr, hcons⟩ := h
      obtain ⟨pre, post, heq, hpre, hnew⟩ := ih hr
      refine ⟨x :: pre, post, by simp [heq], ?_, by simp [hnew, hcons.symm]⟩
      intro hmem
      rcases List.mem_cons.mp hmem with hmem | hmem
      · exact hx hmem.symm
      · exact hpre hmem

theorem removeFirstMatch_some_sublist {lst newLst : List Nat} {nonce : Nat}
    (h : removeFirstMatch lst nonce = some newLst) : newLst.Sublist lst := by
  obtain ⟨pre, post, heq, -, hnew⟩ := removeFirstMatch_some h
  rw [heq, hnew]
  exact List.Sublist.append (List.Sublist.refl pre) (List.sublist_cons_self nonce post)

/-! ### Properties of the gap scan -/

theorem scanNext_some {pending : List Nat} {cache : LRU} {addr : List Nat} :
    ∀ {fuel start r : Nat}, scanNext pending cache addr start fuel = some r →
      sortedListContains pending r = false ∧
      lruContains cache (nonceCacheKey addr r) = false ∧
      start ≤ r ∧
      ∀ v, start ≤ v → v < r →
        sortedListContains pending v = true ∨
        lruContains cache (nonceCacheKey addr v) = true := by
  intro fuel
  induction fuel with
  | zero => intro start r h; simp [scanNext] at h
  | succ f ih =>
    intro start r h
    unfold scanNext at h
    by_cases hfree : (!sortedListContains pending start
        && !lruContains cache (nonceCacheKey addr start)) = true
    · rw [if_pos hfree] at h
      have hr : start = r := Option.some.inj h
      subst hr
      rw [Bool.and_eq_true, Bool.not_eq_eq_eq_not] at hfree
      refine ⟨by simpa using hfree.1, by simpa using hfree.2, le_refl _, ?_⟩
      intro v h1 h2
      omega
    · rw [if_neg hfree] at h
      have hblocked : sortedListContains pending start = true ∨
          lruContains cache (nonceCacheKey addr start) = true := by
        cases h1 : sortedListContains pending start with
        | true => exact Or.inl rfl
        | false =>
          cases h2 : lruContains cache (nonceCacheKey addr start) with
          | true => exact Or.inr rfl
          | false => exact absurd (by rw [h1, h2]; rfl) hfree
      obtain ⟨hf1, hf2, hle, hblock⟩ := ih h
      refine ⟨hf1, hf2, by omega, ?_⟩
      intro v hv1 hv2
      rcases Nat.eq_or_lt_of_le hv1 with heq | hlt
      · rw [← heq]; exact hblocked
      · exact hblock v hlt hv2

theorem scanNext_isSome {pending : List Nat} {cache : LRU} {addr : List Nat} :
    ∀ {fuel start : Nat},
      (∃ m, m < fuel ∧
        sortedListContains pending (start + m) = false ∧
        lruContains cache (nonceCacheKey addr (start + m)) = false) →
      (scanNext pending cache addr start fuel).isSome = true := by
  intro fuel
  induction fuel with
  | zero =>
    intro start h
    obtain ⟨m, hm, -⟩ := h
    omega
  | succ f ih =>
    intro start h
    obtain ⟨m, hm, h1, h2⟩ := h
    unfold scanNext
    by_cases hfree : (!sortedListContains pending start
        && !lruContains cache (nonceCacheKey addr start)) = true
    · rw [if_pos hfree]; rfl
    · rw [if_neg hfree]
      have hm0 : m ≠ 0 := by
        intro h0
        subst h0
        rw [Nat.add_zero] at h1 h2
        exact hfree (by rw [h1, h2]; rfl)
      apply ih
      refine ⟨m - 1, by omega, ?_, ?_⟩
      · have hrw : start + 1 + (m - 1) = start + m := by omega
        rw [hrw]; exact h1
      · have hrw : start + 1 + (m - 1) = start + m := by omega
        rw [hrw]; exact h2

/-- Pigeonhole: among the first P + C + 1 candidates starting anywhere,
where P is the pending slice length and C the cache size, some candidate
is in neither structure, because distinct candidates occupy distinct
pending slots and distinct cache keys. -/
theorem exists_free_nonce (pending : List Nat) (cache : LRU) (addr : List Nat)
    (start : Nat) :
    ∃ m, m ≤ pending.length + cache.entries.length ∧
      sortedListContains pending (start + m) = false ∧
      lruContains cache (nonceCacheKey addr (start + m)) = false := by
  by_contra hcon
  have hblocked : ∀ m, m ≤ pending.length + cache.entries.length →
      sortedListContains pending (start + m) = true ∨
      lruContains cache (nonceCacheKey addr (start + m)) = true := by
    intro m hm
    cases h1 : sortedListContains pending (start + m) with
    | true => exact Or.inl rfl
    | false =>
      cases h2 : lruContains cache (nonceCacheKey addr (start + m)) with
      | true => exact Or.inr rfl
      | false => exact absurd ⟨m, hm, h1, h2⟩ hcon
  have hinj : Function.Injective (fun m : Nat => start + m) := by
    intro a b hab
    simpa using hab
  have hnodup : ((List.range (pending.length + cache.entries.length + 1)).map
      (fun m => start + m)).Nodup :=
    List.Nodup.map hinj (List.nodup_range _)
  have hc : ∀ v ∈ (List.range (pending.length + cache.entries.length + 1)).map
      (fun m => start + m),
      sortedListContains pending v = true ∨
      lruContains cache (nonceCacheKey addr v) = true := by
    intro v hv
    simp only [List.mem_map, List.mem_range] at hv
    obtain ⟨m, hm, rfl⟩ := hv
    exact hblocked m (by omega)
  have hA : (((List.range (pending.length + cache.entries.length + 1)).map
      (fun m => start + m)).filter
        (fun v => sortedListContains pending v)).length ≤ pending.length := by
    apply List.Subperm.length_le
    apply List.subperm_of_subset (List.Nodup.filter _ hnodup)
    intro v hv
    exact mem_of_sortedListContains (List.of_mem_filter hv)
  have hB : (((List.range (pending.length + cache.entries.length + 1)).map
      (fun m => start + m)).filter
        (fun v => !sortedListContains pending v)).length ≤
      cache.entries.length := by
    have hmap : ((((List.range (pending.length + cache.entries.length + 1)).map
        (fun m => start + m)).filter
          (fun v => !sortedListContains pending v)).map
            (nonceCacheKey addr)).length ≤ cache.entries.length := by
      apply List.Subperm.length_le
      apply List.subperm_of_subset
      · exact List.Nodup.map (fun a b hab => nonceCacheKey_inj_nonce hab)
          (List.Nodup.filter _ hnodup)
      · intro k hk
        simp only [List.mem_map] at hk
        obtain ⟨v, hv, rfl⟩ := hk
        have hvc := List.mem_of_mem_filter hv
        have hvp := List.of_mem_filter hv
        rw [Bool.not_eq_eq_eq_not] at hvp
        rcases hc v hvc with h | h
        · rw [h] at hvp; simp at hvp
        · exact (lruContains_iff cache _).mp h
    simpa using hmap
  have hsum := (List.filter_append_perm (fun v => sortedListContains pending v)
    ((List.range (pending.length + cache.entries.length + 1)).map
      (fun m => start + m))).length_eq
  rw [List.length_append] at hsum
  simp only [List.length_map, List.length_range] at hsum
  omega

/-! ### More map and LRU lemmas -/

theorem mem_of_mapGet_some {m : List (List Char × List Nat)} {k : List Char}
    {v : List Nat} (h : mapGet m k = some v) : (k, v) ∈ m := by
  induction m with
  | nil => simp [mapGet] at h
  | cons kv rest ih =>
    by_cases h0 : kv.1 = k
    · simp only [mapGet, if_pos h0] at h
      have hv : kv.2 = v := Option.some.inj h
      have : kv = (k, v) := by
        cases kv
        simp only at h0 hv
        rw [h0, hv]
      rw [← this]
      exact List.mem_cons_self kv rest
    · simp only [mapGet, if_neg h0] at h
      exact List.mem_cons_of_mem kv (ih h)

theorem take_append_take {α : Type} (l1 l2 : List α) (n : Nat) :
    (l1 ++ l2.take n).take n = (l1 ++ l2).take n := by
  rw [List.take_append_eq_append_take, List.take_append_eq_append_take, List.take_take]
  have h : (n - l1.length) ⊓ n = n - l1.length := Nat.min_eq_left (Nat.sub_le n _)
  rw [h]

/-- After folding a run of additions of fresh keys into a cache whose
entries are all distinct from them, the entries are the most recent cap
keys: the reversed run prepended to the old entries, truncated at
capacity. -/
theorem foldl_lruAdd_entries (cap : Nat) :
    ∀ (ks es : List (List Char)), ks.Nodup → (∀ k ∈ ks, k ∉ es) →
      es.length ≤ cap →
      (List.foldl lruAdd { capacity := cap, entries := es } ks).entries =
        (ks.reverse ++ es).take cap := by
  intro ks
  induction ks with
  | nil =>
    intro es _ _ hlen
    simp [List.take_of_length_le hlen]
  | cons k rest ih =>
    intro es hnd hnotin hlen
    rw [List.foldl_cons]
    have hstep : lruAdd { capacity := cap, entries := es } k =
        { capacity := cap, entries := (k :: es).take cap } := by
      unfold lruAdd
      simp only [List.erase_of_not_mem (hnotin k (by simp))]
      by_cases hc : cap < (k :: es).length
      · rw [if_pos hc]
        have hes : es.length = cap := by
          simp only [List.length_cons] at hc
          omega
        have hdl : (k :: es).dropLast = (k :: es).take cap := by
          rw [List.dropLast_eq_take]
          simp [hes]
        rw [hdl]
      · rw [if_neg hc]
        have hle : (k :: es).length ≤ cap := by omega
        rw [List.take_of_length_le hle]
    rw [hstep]
    have hnotin2 : ∀ r ∈ rest, r ∉ (k :: es).take cap := by
      intro r hr hmem
      have hsub : (k :: es).take cap ⊆ k :: es := (List.take_sublist _ _).subset
      rcases List.mem_cons.mp (hsub hmem) with h | h
      · exact (List.nodup_cons.mp hnd).1 (h ▸ hr)
      · exact hnotin r (List.mem_cons_of_mem k hr) h
    have hlen2 : ((k :: es).take cap).length ≤ cap := by
      rw [List.length_take]
      exact Nat.min_le_left _ _
    rw [ih ((k :: es).take cap) (List.nodup_cons.mp hnd).2 hnotin2 hlen2]
    rw [take_append_take]
    simp [List.reverse_cons, List.append_assoc]

/-- Adding capacity-plus-one distinct keys to the empty cache evicts the
first (least recently touched) key. -/
theorem lru_eviction (cap : Nat) (k0 : List Char) (ks : List (List Char))
    (_hcap : 0 < cap) (hnd : (k0 :: ks).Nodup) (hlen : (k0 :: ks).length = cap + 1) :
    lruContains (List.foldl lruAdd { capacity := cap, entries := [] } (k0 :: ks))
      k0 = false := by
  have hks : ks.length = cap := by
    simp only [List.length_cons] at hlen
    omega
  have hentries := foldl_lruAdd_entries cap (k0 :: ks) [] hnd (by simp) (by simp)
  have htake : ((k0 :: ks).reverse ++ []).take cap = ks.reverse := by
    rw [List.append_nil, List.reverse_cons]
    have : cap = ks.reverse.length := by simp [hks]
    rw [this, List.take_left]
  rw [htake] at hentries
  have hnotmem : k0 ∉ ks.reverse := by
    rw [List.mem_reverse]
    exact (List.nodup_cons.mp hnd).1
  cases hcont : lruContains (List.foldl lruAdd { capacity := cap, entries := [] }
      (k0 :: ks)) k0 with
  | false => rfl
  | true =>
    have := (lruContains_iff _ _).mp hcont
    rw [hentries] at this
    exact absurd this hnotmem

/-! ### Helper facts about CalculateNextNonce -/

theorem CalculateNextNonce_false_eq (s : Keeper) (getNonce : List Nat → Nat)
    (a : List Nat) : CalculateNextNonce s getNonce a false = some (getNonce a) := rfl

theorem CalculateNextNonce_true_eq (s : Keeper) (getNonce : List Nat → Nat)
    (a : List Nat) :
    CalculateNextNonce s getNonce a true =
      scanNext (pendingOf s a) s.completedNonces a (getNonce a)
        ((pendingOf s a).length + s.completedNonces.entries.length + 1) := rfl

theorem CalculateNextNonce_true_isSome (s : Keeper) (getNonce : List Nat → Nat)
    (a : List Nat) : (CalculateNextNonce s getNonce a true).isSome = true := by
  rw [CalculateNextNonce_true_eq]
  apply scanNext_isSome
  obtain ⟨m, hm, h1, h2⟩ :=
    exists_free_nonce (pendingOf s a) s.completedNonces a (getNonce a)
  exact ⟨m, by omega, h1, h2⟩

/-! ### Branch equations for RemovePendingNonce -/

theorem RemovePendingNonce_zero (s : Keeper) (n : Nat) (b : Bool) :
    RemovePendingNonce s zeroAddress n b = s := by
  unfold RemovePendingNonce
  rw [if_pos rfl]

theorem RemovePendingNonce_true_none (s : Keeper) (a : List Nat) (n : Nat)
    (hz : a ≠ zeroAddress) (hget : mapGet s.pendingNonces (addrHex a) = none) :
    RemovePendingNonce s a n true =
      { pendingNonces := s.pendingNonces,
        completedNonces := lruAdd s.completedNonces (nonceCacheKey a n) } := by
  unfold RemovePendingNonce
  rw [if_neg hz]
  simp only [eq_self_iff_true, if_true]
  rw [hget]

theorem RemovePendingNonce_true_noGE (s : Keeper) (a : List Nat) (n : Nat)
    (lst : List Nat) (hz : a ≠ zeroAddress)
    (hget : mapGet s.pendingNonces (addrHex a) = some lst)
    (hdrop : dropThroughFirstGE lst n = none) :
    RemovePendingNonce s a n true =
      { pendingNonces := s.pendingNonces,
        completedNonces := lruAdd s.completedNonces (nonceCacheKey a n) } := by
  unfold RemovePendingNonce
  rw [if_neg hz]
  simp only [eq_self_iff_true, if_true]
  rw [hget]
  dsimp only
  rw [hdrop]

theorem RemovePendingNonce_true_emptied (s : Keeper) (a : List Nat) (n : Nat)
    (lst newLst : List Nat) (hz : a ≠ zeroAddress)
    (hget : mapGet s.pendingNonces (addrHex a) = some lst)
    (hdrop : dropThroughFirstGE lst n = some newLst)
    (hemp : newLst.isEmpty = true) :
    RemovePendingNonce s a n true =
      { pendingNonces := mapDelete s.pendingNonces (addrHex a),
        completedNonces := lruAdd s.completedNonces (nonceCacheKey a n) } := by
  unfold RemovePendingNonce
  rw [if_neg hz]
  simp only [eq_self_iff_true, if_true]
  rw [hget]
  dsimp only
  rw [hdrop]
  dsimp only
  rw [hemp]
  simp

theorem RemovePendingNonce_true_pruned (s : Keeper) (a : List Nat) (n : Nat)
    (lst newLst : List Nat) (hz : a ≠ zeroAddress)
    (hget : mapGet s.pendingNonces (addrHex a) = some lst)
    (hdrop : dropThroughFirstGE lst n = some newLst)
    (hemp : newLst.isEmpty = false) :
    RemovePendingNonce s a n true =
      { pendingNonces := mapSet s.pendingNonces (addrHex a) newLst,
        completedNonces := lruAdd s.completedNonces (nonceCacheKey a n) } := by
  unfold RemovePendingNonce
  rw [if_neg hz]
  simp only [eq_self_iff_true, if_true]
  rw [hget]
  dsimp only
  rw [hdrop]
  dsimp only
  rw [hemp]
  simp

theorem RemovePendingNonce_false_none (s : Keeper) (a : List Nat) (n : Nat)
    (hz : a ≠ zeroAddress) (hget : mapGet s.pendingNonces (addrHex a) = none) :
    RemovePendingNonce s a n false = s := by
  unfold RemovePendingNonce
  rw [if_neg hz]
  simp only [Bool.false_eq_true, if_false]
  rw [hget]

theorem RemovePendingNonce_false_noMatch (s : Keeper) (a : List Nat) (n : Nat)
    (lst : List Nat) (hz : a ≠ zeroAddress)
    (hget : mapGet s.pendingNonces (addrHex a) = some lst)
    (hrm : removeFirstMatch lst n = none) :
    RemovePendingNonce s a n false = s := by
  unfold RemovePendingNonce
  rw [if_neg hz]
  simp only [Bool.false_eq_true, if_false]
  rw [hget]
  dsimp only
  rw [hrm]

theorem RemovePendingNonce_false_removed (s : Keeper) (a : List Nat) (n : Nat)
    (lst newLst : List Nat) (hz : a ≠ zeroAddress)
    (hget : mapGet s.pendingNonces (addrHex a) = some lst)
    (hrm : removeFirstMatch lst n = some newLst) :
    RemovePendingNonce s a n false =
      { pendingNonces := mapSet s.pendingNonces (addrHex a) newLst,
        completedNonces := s.completedNonces } := by
  unfold RemovePendingNonce
  rw [if_neg hz]
  simp only [Bool.false_eq_true, if_false]
  rw [hget]
  dsimp only
  rw [hrm]

/-! ### Concrete sample values used by counterexamples and witnesses -/

/-- A sample non-zero 20-byte address. -/
def sampleAddr : List Nat := 1 :: List.replicate 19 0

/-- The state of the gap-skipping example: committed nonce 5, pending
reservations 5, 6 and 8, completed cache holding nonce 7. -/
def gapState : Keeper :=
  { pendingNonces := [(addrHex sampleAddr, [5, 6, 8])],
    completedNonces := { capacity := 100000, entries := [nonceCacheKey sampleAddr 7] } }

/-- A state whose only pending reservation is nonce 6 of the sample address. -/
def singleState : Keeper :=
  { pendingNonces := [(addrHex sampleAddr, [6])],
    completedNonces := { capacity := 100000, entries := [] } }

/-- A state with pending reservations 5, 6 and 7 of the sample address. -/
def tripleState : Keeper :=
  { pendingNonces := [(addrHex sampleAddr, [5, 6, 7])],
    completedNonces := { capacity := 100000, entries := [] } }

/-! ### Claim theorems -/

/-- Claim C1 (code bug, evaluation at the failing input): AddPendingNonce has
no zero-address guard, so reserving nonce 0 for the zero address from the
fresh keeper state inserts an entry into the pending table, makes the next
suggestion with includePending true return 1 instead of the committed nonce 0,
and the entry can never be removed because RemovePendingNonce returns
immediately for the zero address. -/
theorem zero_address_reserve_not_noop :
    (AddPendingNonce initialKeeper zeroAddress 0).pendingNonces =
      [(addrHex zeroAddress, [0])] ∧
    CalculateNextNonce (AddPendingNonce initialKeeper zeroAddress 0)
      (fun _ => 0) zeroAddress true = some 1 ∧
    CalculateNextNonce initialKeeper (fun _ => 0) zeroAddress true = some 0 ∧
    RemovePendingNonce (AddPendingNonce initialKeeper zeroAddress 0)
      zeroAddress 0 false = AddPendingNonce initialKeeper zeroAddress 0 ∧
    RemovePendingNonce (AddPendingNonce initialKeeper zeroAddress 0)
      zeroAddress 0 true = AddPendingNonce initialKeeper zeroAddress 0 := by
  refine ⟨by decide, by decide, by decide, by decide, by decide⟩

/-- Claim C2 (counterexample): retiring with success false the only pending
nonce of an address leaves the address in the mapping with an empty
sequence, violating the no-empty-entries invariant. -/
theorem retire_failure_leaves_empty_entry :
    noEmptyEntries singleState.pendingNonces ∧
    (RemovePendingNonce singleState sampleAddr 6 false).pendingNonces =
      [(addrHex sampleAddr, [])] ∧
    ¬ noEmptyEntries (RemovePendingNonce singleState sampleAddr 6 false).pendingNonces := by
  refine ⟨by decide, by decide, by decide⟩

/-- Claim C2 (amended): Reserve and Retire with success true preserve the
no-empty-entries invariant (the success branch deletes the address entry
when its sequence empties), but Retire with success false can leave an
empty-sequence entry, as the counterexample shows. -/
theorem reserve_and_success_retire_preserve_no_empty (s : Keeper)
    (a : List Nat) (n : Nat) (hs : noEmptyEntries s.pendingNonces) :
    noEmptyEntries (AddPendingNonce s a n).pendingNonces ∧
    noEmptyEntries (RemovePendingNonce s a n true).pendingNonces := by
  constructor
  · intro kv hkv
    rcases mem_mapSet hkv with h | h
    · rw [h]
      simp only [ne_eq]
      intro hempty
      have hlen := (List.perm_insertionSort (· ≤ ·)
        (((mapGet s.pendingNonces (addrHex a)).getD []) ++ [n])).length_eq
      rw [hempty] at hlen
      simp [List.length_append] at hlen
    · exact hs kv h
  · by_cases hz : a = zeroAddress
    · rw [hz, RemovePendingNonce_zero]; exact hs
    · cases hget : mapGet s.pendingNonces (addrHex a) with
      | none => rw [RemovePendingNonce_true_none s a n hz hget]; exact hs
      | some lst =>
        cases hdrop : dropThroughFirstGE lst n with
        | none => rw [RemovePendingNonce_true_noGE s a n lst hz hget hdrop]; exact hs
        | some newLst =>
          cases hemp : newLst.isEmpty with
          | true =>
            rw [RemovePendingNonce_true_emptied s a n lst newLst hz hget hdrop hemp]
            intro kv hkv
            exact hs kv (mem_mapDelete hkv)
          | false =>
            rw [RemovePendingNonce_true_pruned s a n lst newLst hz hget hdrop hemp]
            intro kv hkv
            rcases mem_mapSet hkv with h | h
            · rw [h]
              simp only [ne_eq]
              intro hcontra
              rw [hcontra] at hemp
              simp [List.isEmpty] at hemp
            · exact hs kv h

/-- Witness for the amended Claim C2 at a concrete state. -/
theorem reserve_and_success_retire_preserve_no_empty_witness :
    noEmptyEntries (AddPendingNonce singleState sampleAddr 9).pendingNonces ∧
    noEmptyEntries (RemovePendingNonce singleState sampleAddr 9 true).pendingNonces :=
  reserve_and_success_retire_preserve_no_empty singleState sampleAddr 9 (by decide)


/-- Membership after an LRU addition comes from the added key or from the
old entries: an addition never makes any other key appear. -/
theorem mem_of_mem_lruAdd {c : LRU} {k k2 : List Char}
    (h : k2 ∈ (lruAdd c k).entries) : k2 = k ∨ k2 ∈ c.entries := by
  unfold lruAdd at h
  dsimp only at h
  by_cases hc : c.capacity < (k :: c.entries.erase k).length
  · rw [if_pos hc] at h
    have h2 := (List.dropLast_sublist _).subset h
    rcases List.mem_cons.mp h2 with h3 | h3
    · exact Or.inl h3
    · exact Or.inr (List.mem_of_mem_erase h3)
  · rw [if_neg hc] at h
    rcases List.mem_cons.mp h with h3 | h3
    · exact Or.inl h3
    · exact Or.inr (List.mem_of_mem_erase h3)

/-- Claim C3: with includePending false, CalculateNextNonce returns the
committed nonce at once, consulting neither structure; with includePending
true it returns the smallest value, starting at the committed nonce and
stepping by one, that is in neither the (sorted) pending slice of the
address nor the completed nonce cache. -/
theorem calculateNextNonce_gap_scan (s : Keeper) (getNonce : List Nat → Nat)
    (a : List Nat) (hsp : List.Sorted (· ≤ ·) (pendingOf s a)) :
    CalculateNextNonce s getNonce a false = some (getNonce a) ∧
    ∃ r, CalculateNextNonce s getNonce a true = some r ∧
      getNonce a ≤ r ∧ ¬ blockedNonce s a r ∧
      ∀ v, getNonce a ≤ v → v < r → blockedNonce s a v := by
  refine ⟨rfl, ?_⟩
  have hsome := CalculateNextNonce_true_isSome s getNonce a
  obtain ⟨r, hr⟩ := Option.isSome_iff_exists.mp hsome
  refine ⟨r, hr, ?_⟩
  rw [CalculateNextNonce_true_eq] at hr
  obtain ⟨hf1, hf2, hle, hblock⟩ := scanNext_some hr
  refine ⟨hle, ?_, ?_⟩
  · intro hb
    rcases hb with hb | hb
    · have htrue := sortedListContains_of_mem hsp hb
      rw [hf1] at htrue
      exact Bool.noConfusion htrue
    · have htrue := (lruContains_iff _ _).mpr hb
      rw [hf2] at htrue
      exact Bool.noConfusion htrue
  · intro v hv1 hv2
    rcases hblock v hv1 hv2 with h | h
    · exact Or.inl (mem_of_sortedListContains h)
    · exact Or.inr ((lruContains_iff _ _).mp h)

/-- Witness for Claim C3 at the gap-skipping example: committed nonce 5,
pending 5, 6 and 8, completed cache holding 7; the suggestion is 9. -/
theorem calculateNextNonce_gap_scan_witness :
    CalculateNextNonce gapState (fun _ => 5) sampleAddr true = some 9 ∧
    (CalculateNextNonce gapState (fun _ => 5) sampleAddr false = some 5 ∧
     ∃ r, CalculateNextNonce gapState (fun _ => 5) sampleAddr true = some r ∧
       5 ≤ r ∧ ¬ blockedNonce gapState sampleAddr r ∧
       ∀ v, 5 ≤ v → v < r → blockedNonce gapState sampleAddr v) :=
  ⟨by decide, calculateNextNonce_gap_scan gapState (fun _ => 5) sampleAddr (by decide)⟩

/-- Claim C4: Retire with success true records the pair in the completed
cache and prunes exactly the prefix of the pending slice up to and
including the first element at least the nonce (nothing when no such
element exists, the whole entry when the suffix is empty), leaving other
addresses untouched. -/
theorem retire_success_records_and_prunes (s : Keeper) (a : List Nat) (n : Nat)
    (lst : List Nat) (ha : a ≠ zeroAddress)
    (hget : mapGet s.pendingNonces (addrHex a) = some lst)
    (_hsorted : List.Sorted (· ≤ ·) lst) :
    (RemovePendingNonce s a n true).completedNonces =
      lruAdd s.completedNonces (nonceCacheKey a n) ∧
    ((∀ x ∈ lst, x < n) →
      (RemovePendingNonce s a n true).pendingNonces = s.pendingNonces) ∧
    ((∃ x ∈ lst, n ≤ x) → ∃ pre x post, lst = pre ++ x :: post ∧
      (∀ y ∈ pre, y < n) ∧ n ≤ x ∧
      mapGet (RemovePendingNonce s a n true).pendingNonces (addrHex a) =
        (if post.isEmpty then none else some post)) ∧
    (∀ k, k ≠ addrHex a →
      mapGet (RemovePendingNonce s a n true).pendingNonces k =
        mapGet s.pendingNonces k) := by
  cases hdrop : dropThroughFirstGE lst n with
  | none =>
    rw [RemovePendingNonce_true_noGE s a n lst ha hget hdrop]
    refine ⟨rfl, fun _ => rfl, ?_, fun k _ => rfl⟩
    intro hex
    obtain ⟨x, hx, hnx⟩ := hex
    have := dropThroughFirstGE_none.mp hdrop x hx
    omega
  | some newLst =>
    obtain ⟨pre, x, heq, hpre, hx⟩ := dropThroughFirstGE_some hdrop
    have hmemx : x ∈ lst := by rw [heq]; simp
    cases hemp : newLst.isEmpty with
    | true =>
      rw [RemovePendingNonce_true_emptied s a n lst newLst ha hget hdrop hemp]
      refine ⟨rfl, ?_, ?_, ?_⟩
      · intro hall
        have := hall x hmemx
        omega
      · intro _
        refine ⟨pre, x, newLst, heq, hpre, hx, ?_⟩
        rw [hemp]
        exact mapGet_mapDelete_self s.pendingNonces (addrHex a)
      · intro k hk
        exact mapGet_mapDelete_ne s.pendingNonces (addrHex a) k hk
    | false =>
      rw [RemovePendingNonce_true_pruned s a n lst newLst ha hget hdrop hemp]
      refine ⟨rfl, ?_, ?_, ?_⟩
      · intro hall
        have := hall x hmemx
        omega
      · intro _
        refine ⟨pre, x, newLst, heq, hpre, hx, ?_⟩
        rw [hemp]
        exact mapGet_mapSet_self s.pendingNonces (addrHex a) newLst
      · intro k hk
        exact mapGet_mapSet_ne s.pendingNonces (addrHex a) k newLst hk

/-- Witness for Claim C4: pending 5, 6, 8, retiring 6 with success leaves
pending 8 and records the pair in the cache. -/
theorem retire_success_records_and_prunes_witness :
    (RemovePendingNonce gapState sampleAddr 6 true).pendingNonces =
      [(addrHex sampleAddr, [8])] ∧
    (RemovePendingNonce gapState sampleAddr 6 true).completedNonces.entries =
      [nonceCacheKey sampleAddr 6, nonceCacheKey sampleAddr 7] ∧
    ((RemovePendingNonce gapState sampleAddr 6 true).completedNonces =
       lruAdd gapState.completedNonces (nonceCacheKey sampleAddr 6) ∧
     ((∀ x ∈ [5, 6, 8], x < 6) →
       (RemovePendingNonce gapState sampleAddr 6 true).pendingNonces =
         gapState.pendingNonces) ∧
     ((∃ x ∈ [5, 6, 8], 6 ≤ x) → ∃ pre x post, [5, 6, 8] = pre ++ x :: post ∧
       (∀ y ∈ pre, y < 6) ∧ 6 ≤ x ∧
       mapGet (RemovePendingNonce gapState sampleAddr 6 true).pendingNonces
         (addrHex sampleAddr) = (if post.isEmpty then none else some post)) ∧
     (∀ k, k ≠ addrHex sampleAddr →
       mapGet (RemovePendingNonce gapState sampleAddr 6 true).pendingNonces k =
         mapGet gapState.pendingNonces k)) :=
  ⟨by decide, by decide,
   retire_success_records_and_prunes gapState sampleAddr 6 [5, 6, 8]
     (by decide) (by decide) (by decide)⟩

/-- Claim C5: Retire with success false never writes the completed cache,
is a no-op when the address or the nonce has no pending entry, and
otherwise removes exactly the first exact match, preserving the order of
the remaining elements and the other addresses. -/
theorem retire_failure_releases_exactly_one (s : Keeper) (a : List Nat)
    (n : Nat) (ha : a ≠ zeroAddress) :
    (RemovePendingNonce s a n false).completedNonces = s.completedNonces ∧
    (mapGet s.pendingNonces (addrHex a) = none →
      RemovePendingNonce s a n false = s) ∧
    (∀ lst, mapGet s.pendingNonces (addrHex a) = some lst →
      (n ∉ lst → RemovePendingNonce s a n false = s) ∧
      (n ∈ lst → ∃ pre post, lst = pre ++ n :: post ∧ n ∉ pre ∧
        mapGet (RemovePendingNonce s a n false).pendingNonces (addrHex a) =
          some (pre ++ post) ∧
        ∀ k, k ≠ addrHex a →
          mapGet (RemovePendingNonce s a n false).pendingNonces k =
            mapGet s.pendingNonces k)) := by
  refine ⟨?_, ?_, ?_⟩
  · cases hget : mapGet s.pendingNonces (addrHex a) with
    | none => rw [RemovePendingNonce_false_none s a n ha hget]
    | some lst =>
      cases hrm : removeFirstMatch lst n with
      | none => rw [RemovePendingNonce_false_noMatch s a n lst ha hget hrm]
      | some newLst =>
        rw [RemovePendingNonce_false_removed s a n lst newLst ha hget hrm]
  · intro hget
    exact RemovePendingNonce_false_none s a n ha hget
  · intro lst hget
    constructor
    · intro hnot
      exact RemovePendingNonce_false_noMatch s a n lst ha hget
        (removeFirstMatch_none.mpr hnot)
    · intro hmem
      cases hrm : removeFirstMatch lst n with
      | none => exact absurd hmem (removeFirstMatch_none.mp hrm)
      | some newLst =>
        obtain ⟨pre, post, heq, hpre, hnew⟩ := removeFirstMatch_some hrm
        rw [RemovePendingNonce_false_removed s a n lst newLst ha hget hrm]
        refine ⟨pre, post, heq, hpre, ?_, ?_⟩
        · rw [← hnew]
          exact mapGet_mapSet_self s.pendingNonces (addrHex a) newLst
        · intro k hk
          exact mapGet_mapSet_ne s.pendingNonces (addrHex a) k newLst hk

/-- Witness for Claim C5: pending 5, 6, 7, retiring 6 with success false
leaves pending 5, 7 and an unchanged cache. -/
theorem retire_failure_releases_exactly_one_witness :
    (RemovePendingNonce tripleState sampleAddr 6 false).pendingNonces =
      [(addrHex sampleAddr, [5, 7])] ∧
    ((RemovePendingNonce tripleState sampleAddr 6 false).completedNonces =
       tripleState.completedNonces ∧
     (mapGet tripleState.pendingNonces (addrHex sampleAddr) = none →
       RemovePendingNonce tripleState sampleAddr 6 false = tripleState) ∧
     (∀ lst, mapGet tripleState.pendingNonces (addrHex sampleAddr) = some lst →
       (6 ∉ lst → RemovePendingNonce tripleState sampleAddr 6 false = tripleState) ∧
       (6 ∈ lst → ∃ pre post, lst = pre ++ 6 :: post ∧ 6 ∉ pre ∧
         mapGet (RemovePendingNonce tripleState sampleAddr 6 false).pendingNonces
           (addrHex sampleAddr) = some (pre ++ post) ∧
         ∀ k, k ≠ addrHex sampleAddr →
           mapGet (RemovePendingNonce tripleState sampleAddr 6 false).pendingNonces k =
             mapGet tripleState.pendingNonces k))) :=
  ⟨by decide, retire_failure_releases_exactly_one tripleState sampleAddr 6 (by decide)⟩

/-- Claim C6: after reserving nonce c for an address, a fresh suggestion
with includePending true never returns c, in any state: the reserved nonce
is in the re-sorted pending slice, and the scan only returns values absent
from it. -/
theorem reserve_then_suggest_no_collision (s : Keeper)
    (getNonce : List Nat → Nat) (a : List Nat) (c : Nat) :
    ∃ r, CalculateNextNonce (AddPendingNonce s a c) getNonce a true = some r ∧
      r ≠ c := by
  have hsome := CalculateNextNonce_true_isSome (AddPendingNonce s a c) getNonce a
  obtain ⟨r, hr⟩ := Option.isSome_iff_exists.mp hsome
  refine ⟨r, hr, ?_⟩
  rw [CalculateNextNonce_true_eq] at hr
  obtain ⟨hf1, -, -, -⟩ := scanNext_some hr
  have hpend : pendingOf (AddPendingNonce s a c) a =
      List.insertionSort (· ≤ ·)
        (((mapGet s.pendingNonces (addrHex a)).getD []) ++ [c]) := by
    unfold pendingOf AddPendingNonce
    dsimp only
    rw [mapGet_mapSet_self]
    rfl
  have hsorted : List.Sorted (· ≤ ·) (pendingOf (AddPendingNonce s a c) a) := by
    rw [hpend]
    exact List.sorted_insertionSort _ _
  have hmem : c ∈ pendingOf (AddPendingNonce s a c) a := by
    rw [hpend, List.Perm.mem_iff (List.perm_insertionSort _ _)]
    exact List.mem_append_right _ (by simp)
  intro hrc
  rw [hrc] at hf1
  have htrue := sortedListContains_of_mem hsorted hmem
  rw [hf1] at htrue
  exact Bool.noConfusion htrue

/-- Claim C7: the gap scan of CalculateNextNonce with includePending true
terminates for every address, committed nonce and finite state: the fuel
equal to the total size of the two structures plus one always suffices to
reach a candidate present in neither. -/
theorem gap_scan_terminates (s : Keeper) (getNonce : List Nat → Nat)
    (a : List Nat) : (CalculateNextNonce s getNonce a true).isSome = true :=
  CalculateNextNonce_true_isSome s getNonce a

/-- Claim C8: every operation keeps every pending slice sorted in
ascending order: insertion re-sorts, the success prune keeps a suffix and
the failure removal keeps a subsequence; CalculateNextNonce reads but
never writes the table. -/
theorem operations_preserve_sorted (s : Keeper) (a : List Nat) (n : Nat)
    (hs : allSorted s.pendingNonces) :
    allSorted (AddPendingNonce s a n).pendingNonces ∧
    allSorted (RemovePendingNonce s a n true).pendingNonces ∧
    allSorted (RemovePendingNonce s a n false).pendingNonces := by
  refine ⟨?_, ?_, ?_⟩
  · intro kv hkv
    rcases mem_mapSet hkv with h | h
    · rw [h]
      exact List.sorted_insertionSort _ _
    · exact hs kv h
  · by_cases hz : a = zeroAddress
    · rw [hz, RemovePendingNonce_zero]
      exact hs
    · cases hget : mapGet s.pendingNonces (addrHex a) with
      | none =>
        rw [RemovePendingNonce_true_none s a n hz hget]
        exact hs
      | some lst =>
        cases hdrop : dropThroughFirstGE lst n with
        | none =>
          rw [RemovePendingNonce_true_noGE s a n lst hz hget hdrop]
          exact hs
        | some newLst =>
          have hlst : List.Sorted (· ≤ ·) lst :=
            hs (addrHex a, lst) (mem_of_mapGet_some hget)
          have hnew : List.Sorted (· ≤ ·) newLst :=
            List.Pairwise.sublist (dropThroughFirstGE_some_sublist hdrop) hlst
          cases hemp : newLst.isEmpty with
          | true =>
            rw [RemovePendingNonce_true_emptied s a n lst newLst hz hget hdrop hemp]
            intro kv hkv
            exact hs kv (mem_mapDelete hkv)
          | false =>
            rw [RemovePendingNonce_true_pruned s a n lst newLst hz hget hdrop hemp]
            intro kv hkv
            rcases mem_mapSet hkv with h | h
            · rw [h]
              exact hnew
            · exact hs kv h
  · by_cases hz : a = zeroAddress
    · rw [hz, RemovePendingNonce_zero]
      exact hs
    · cases hget : mapGet s.pendingNonces (addrHex a) with
      | none =>
        rw [RemovePendingNonce_false_none s a n hz hget]
        exact hs
      | some lst =>
        cases hrm : removeFirstMatch lst n with
        | none =>
          rw [RemovePendingNonce_false_noMatch s a n lst hz hget hrm]
          exact hs
        | some newLst =>
          have hlst : List.Sorted (· ≤ ·) lst :=
            hs (addrHex a, lst) (mem_of_mapGet_some hget)
          have hnew : List.Sorted (· ≤ ·) newLst :=
            List.Pairwise.sublist (removeFirstMatch_some_sublist hrm) hlst
          rw [RemovePendingNonce_false_removed s a n lst newLst hz hget hrm]
          intro kv hkv
          rcases mem_mapSet hkv with h | h
          · rw [h]
            exact hnew
          · exact hs kv h

/-- Witness for Claim C8 at a concrete state. -/
theorem operations_preserve_sorted_witness :
    allSorted (AddPendingNonce gapState sampleAddr 7).pendingNonces ∧
    allSorted (RemovePendingNonce gapState sampleAddr 7 true).pendingNonces ∧
    allSorted (RemovePendingNonce gapState sampleAddr 7 false).pendingNonces :=
  operations_preserve_sorted gapState sampleAddr 7 (by decide)

/-- Claim C9 (spec-modelled cache): the keeper cache has capacity 100000;
a Contains hit counts as a recency touch, making the entry most recently
used; and adding capacity plus one distinct keys to an empty cache evicts
the least recently touched (first) key, which Contains then reports
absent. -/
theorem completed_cache_touch_and_eviction :
    initialKeeper.completedNonces.capacity = 100000 ∧
    (∀ (c : LRU) (k : List Char), lruContains c k = true →
      (lruContainsTouch c k).1 = true ∧
      (lruContainsTouch c k).2.entries.head? = some k) ∧
    (∀ (cap : Nat) (k0 : List Char) (ks : List (List Char)),
      0 < cap → (k0 :: ks).Nodup → (k0 :: ks).length = cap + 1 →
      lruContains (List.foldl lruAdd { capacity := cap, entries := [] }
        (k0 :: ks)) k0 = false) := by
  refine ⟨rfl, ?_, ?_⟩
  · intro c k hk
    have hk2 : c.entries.contains k = true := hk
    unfold lruContainsTouch
    rw [if_pos hk2]
    exact ⟨rfl, rfl⟩
  · intro cap k0 ks hcap hnd hlen
    exact lru_eviction cap k0 ks hcap hnd hlen

/-- Witness for Claim C9: with capacity 2, adding three distinct keys
evicts the first; a Contains hit on an interior key moves it to the most
recent position. -/
theorem completed_cache_touch_and_eviction_witness :
    ((lruContainsTouch
        { capacity := 100000,
          entries := [nonceCacheKey sampleAddr 0, nonceCacheKey sampleAddr 1] }
        (nonceCacheKey sampleAddr 1)).1 = true ∧
      (lruContainsTouch
        { capacity := 100000,
          entries := [nonceCacheKey sampleAddr 0, nonceCacheKey sampleAddr 1] }
        (nonceCacheKey sampleAddr 1)).2.entries.head? =
          some (nonceCacheKey sampleAddr 1)) ∧
    lruContains (List.foldl lruAdd { capacity := 2, entries := [] }
      (nonceCacheKey sampleAddr 0 ::
        [nonceCacheKey sampleAddr 1, nonceCacheKey sampleAddr 2]))
      (nonceCacheKey sampleAddr 0) = false :=
  ⟨completed_cache_touch_and_eviction.2.1
      { capacity := 100000,
        entries := [nonceCacheKey sampleAddr 0, nonceCacheKey sampleAddr 1] }
      (nonceCacheKey sampleAddr 1) (by decide),
    completed_cache_touch_and_eviction.2.2 2 (nonceCacheKey sampleAddr 0)
      [nonceCacheKey sampleAddr 1, nonceCacheKey sampleAddr 2]
      (by decide) (by decide) (by decide)⟩

/-- Claim C10: the completed-cache key is injective on address and nonce
pairs of well formed addresses, and hence adding one pair to the cache
never makes a different pair appear present. -/
theorem nonceCacheKey_injective_pairs (a1 a2 : List Nat) (n1 n2 : Nat)
    (h1 : isValidAddr a1) (h2 : isValidAddr a2) :
    (nonceCacheKey a1 n1 = nonceCacheKey a2 n2 → a1 = a2 ∧ n1 = n2) ∧
    (∀ c : LRU, (a1, n1) ≠ (a2, n2) →
      lruContains c (nonceCacheKey a2 n2) = false →
      lruContains (lruAdd c (nonceCacheKey a1 n1))
        (nonceCacheKey a2 n2) = false) := by
  refine ⟨nonceCacheKey_inj h1 h2, ?_⟩
  intro c hne hcon
  have hkne : nonceCacheKey a2 n2 ≠ nonceCacheKey a1 n1 := by
    intro hk
    obtain ⟨ha, hn⟩ := nonceCacheKey_inj h2 h1 hk
    exact hne (by rw [ha, hn])
  have hnotmem : nonceCacheKey a2 n2 ∉ c.entries := by
    intro hmem
    have hmem2 := (lruContains_iff _ _).mpr hmem
    rw [hcon] at hmem2
    exact Bool.noConfusion hmem2
  cases hres : lruContains (lruAdd c (nonceCacheKey a1 n1))
      (nonceCacheKey a2 n2) with
  | false => rfl
  | true =>
    have hmem := (lruContains_iff _ _).mp hres
    rcases mem_of_mem_lruAdd hmem with h | h
    · exact absurd h hkne
    · exact absurd h hnotmem

/-- Witness for Claim C10 at two concrete distinct pairs. -/
theorem nonceCacheKey_injective_pairs_witness :
    (nonceCacheKey sampleAddr 1 = nonceCacheKey zeroAddress 2 →
      sampleAddr = zeroAddress ∧ 1 = 2) ∧
    (∀ c : LRU, (sampleAddr, 1) ≠ (zeroAddress, 2) →
      lruContains c (nonceCacheKey zeroAddress 2) = false →
      lruContains (lruAdd c (nonceCacheKey sampleAddr 1))
        (nonceCacheKey zeroAddress 2) = false) :=
  nonceCacheKey_injective_pairs sampleAddr zeroAddress 1 2 (by decide) (by decide)

end SeiNonce
